import Mathlib

/-!
Shallow embedding of the core of `sebastian` (src/sebastian/core/transforms.py)
together with the parts of its data model that transforms.py uses.

The Point and OSequence classes live in sebastian/core (not under src/), and the
note helpers `modifiers` and `letter` live in sebastian/core/notes.py (also not
under src/); those are modelled from the spec, as marked on each definition.
Everything else is translated directly from src/sebastian/core/transforms.py.
-/

namespace Sebastian

/-- Modelled from the spec: a Point (sebastian/core, not under src/) is a
key/value bag of musical attributes.  Following the design note of the spec, it
is represented as a fixed struct with optional fields for the recognized keys
(`offset` is required for any point inside a sequence, so it is non-optional)
plus an open side table `extra` for unrecognized keys, which every transform
passes through untouched.  A key is present exactly when its field is `some`
(for `extra`: when the key is listed). -/
structure Point where
  offset : Int
  duration : Option Int := none
  pitch : Option Int := none
  octave : Option Int := none
  midi_pitch : Option Int := none
  velocity : Option Int := none
  lilypond : Option String := none
  extra : List (String × Int) := []
deriving DecidableEq, Repr

/-- Modelled from the spec: an OSequence (sebastian/core, not under src/) is an
ordered collection of Points. -/
structure OSequence where
  elements : List Point
deriving DecidableEq, Repr

/-- The duration of a point with absent duration read as 0, as in the source
reads `point.get(DURATION_64, 0)`. -/
def Point.dur (p : Point) : Int := p.duration.getD 0

/-- The end of the time slot a point occupies: offset plus duration. -/
def Point.endOffset (p : Point) : Int := p.offset + p.dur

/-- Modelled from the spec: `next_offset()` returns max(offset + duration) over
all elements, or 0 for an empty sequence (the fold seeds the max with 0). -/
def OSequence.next_offset (s : OSequence) : Int :=
  (s.elements.map Point.endOffset).foldl max 0

/-- Modelled from the spec: sequence concatenation appends the right operand
elements with their offsets shifted by the left operand next_offset(). -/
def OSequence.concat (a b : OSequence) : OSequence :=
  OSequence.mk (a.elements ++ b.elements.map
    (fun p => { p with offset := p.offset + a.next_offset }))

/-- Modelled from the spec: `map_points` applies a point function to every
point, producing a new sequence in the original relative order.  This is the
sequence operation the `transform_sequence` lifting decorator delegates to. -/
def OSequence.map_points (s : OSequence) (f : Point → Point) : OSequence :=
  OSequence.mk (s.elements.map f)

/-- Errors the source can raise in the translated fragments.  A Python
`ValueError` from `dynamics` is represented by its format template together
with the value and the marker-name list interpolated into it. -/
inductive PyError where
  | keyError (key : String)
  | indexError
  | zeroDivisionError
  | valueError (template : String) (named : String) (valid : List String)
deriving DecidableEq, Repr

instance {ε α : Type} [DecidableEq ε] [DecidableEq α] : DecidableEq (Except ε α) :=
  fun x y =>
    match x, y with
    | .ok a, .ok b =>
      if h : a = b then isTrue (by rw [h]) else isFalse (fun hc => by cases hc; exact h rfl)
    | .error a, .error b =>
      if h : a = b then isTrue (by rw [h]) else isFalse (fun hc => by cases hc; exact h rfl)
    | .ok _, .error _ => isFalse (fun hc => by cases hc)
    | .error _, .ok _ => isFalse (fun hc => by cases hc)

/-- Python string repetition `s * m` for an integer count: the empty string
whenever the count is not positive. -/
def pyStrMul (s : String) (m : Int) : String :=
  if m ≤ 0 then "" else String.join (List.replicate m.toNat s)

/-- Python `str.lower()`, rendered over the character list of the string. -/
def pyLower (s : String) : String := String.mk (s.data.map Char.toLower)

/-- Python `int()` applied to an exact rational: truncation toward zero. -/
def pyInt (q : ℚ) : Int := if q < 0 then Int.ceil q else Int.floor q

/-- Modelled from the spec: the external collaborator accidental_adjustment
(`modifiers` of sebastian/core/notes.py, not under src/).  Per the spec, a
pitch is a diatonic index whose accidentals are folded in beyond the 0..6
range: each step of 7 upward is one more sharp, each step of 7 downward one
more flat, so the adjustment is the floored quotient by 7. -/
def modifiers (pitch : Int) : Int := Int.fdiv pitch 7

/-- Modelled from the spec: the external pitch-to-letter-name table (`letter`
of sebastian/core/notes.py, not under src/).  The letters follow the same
index order as the semitone table of midi_pitch: index 0 is D (semitone 2),
1 is A (9), 2 is E (4), 3 is B (11), 4 is F (5), 5 is C (0), 6 is G (7). -/
def letter (pitch : Int) : String :=
  (["D", "A", "E", "B", "F", "C", "G"].getD (pitch.emod 7).toNat "C")

/-- From transforms.py: `invert(midi_pitch_pivot)` applied to one point.  If
the point carries midi_pitch it is reflected about the pivot; otherwise the
point passes through unchanged. -/
def invert (midi_pitch_pivot : Int) (point : Point) : Point :=
  match point.midi_pitch with
  | some mp =>
    { point with midi_pitch := some (midi_pitch_pivot - (mp - midi_pitch_pivot)) }
  | none => point

/-- The point with a sole attribute offset := n, that is the Python dict
`{OFFSET_64: n}` (every other key absent). -/
def barePoint (n : Int) : Point := { offset := n }

/-- The per-point offset update of `reverse`: a copy of the point whose offset
becomes `last_offset - offset - duration` (duration read as 0 when absent). -/
def reversePoint (last_offset : Int) (point : Point) : Point :=
  { point with offset := last_offset - point.offset - point.duration.getD 0 }

/-- The ordering of points by offset used to re-sort the result of reverse
(`sorted(new_elements, key=lambda x: x[OFFSET_64])`). -/
def offsetLE (a b : Point) : Prop := a.offset ≤ b.offset

instance : DecidableRel offsetLE :=
  fun a b => inferInstanceAs (Decidable (a.offset ≤ b.offset))

instance : IsTotal Point offsetLE := ⟨fun a b => Int.le_total a.offset b.offset⟩

instance : IsTrans Point offsetLE := ⟨fun _ _ _ hab hbc => le_trans hab hbc⟩

/-- The anchoring step of `reverse`: when the sequence is nonempty and its
first element does not sit at offset 0, a zero-duration anchor point at offset
0 is prepended via sequence concatenation (the shift applied by `concat` is
the next_offset of the one-point anchor sequence, which is 0). -/
def OSequence.anchored (s : OSequence) : OSequence :=
  match s.elements with
  | [] => s
  | p :: _ =>
    if p.offset ≠ 0 then OSequence.concat (OSequence.mk [barePoint 0]) s else s

/-- From transforms.py: `reverse()`.  last_offset is the next_offset of the
original sequence; every point of the (possibly anchor-prefixed) sequence gets
the new offset `last_offset - offset - duration`; any resulting point equal to
the bare dict `{OFFSET_64: 0}` is dropped (the loop appends exactly the mapped
points passing that test, rendered here as map-then-filter); the survivors are
re-sorted by offset. -/
def reverse (sequence : OSequence) : OSequence :=
  let last_offset := sequence.next_offset
  let old_sequence := sequence.anchored
  OSequence.mk (List.insertionSort offsetLE
    ((old_sequence.elements.map (reversePoint last_offset)).filter
      (fun new_point => decide (new_point ≠ barePoint 0))))

/-- The semitone table of midi_pitch: `[2, 9, 4, 11, 5, 0, 7]`. -/
def midi_pitchTable : List Int := [2, 9, 4, 11, 5, 0, 7]

/-- From transforms.py: `midi_pitch` applied to one point.  Reads octave and
pitch (KeyError when absent), looks up the semitone table at `pitch % 7`
(Python % is Euclidean remainder; IndexError when out of range), and stores
`table[pitch % 7] + modifiers(pitch) + 12 * octave` under midi_pitch. -/
def midi_pitch (point : Point) : Except PyError Point :=
  match point.octave with
  | none => Except.error (PyError.keyError "octave")
  | some octave =>
    match point.pitch with
    | none => Except.error (PyError.keyError "pitch")
    | some pitch =>
      match midi_pitchTable.get? (pitch.emod 7).toNat with
      | none => Except.error PyError.indexError
      | some base =>
        Except.ok { point with midi_pitch := some (base + modifiers pitch + 12 * octave) }

/-- From transforms.py: `lilypond` applied to one point.  If the point already
carries a lilypond key it is returned untouched.  Otherwise octave, pitch and
duration are read (KeyError when absent), the octave marks are an apostrophe
(written \x27) repeated octave - 4 times above octave 4 or a comma repeated
4 - octave times below, the accidental suffix is the Python expression
`"is" * m` for positive m and `"es" * m` for negative m (which, being a
repetition by a negative count, is the empty string), the letter is
lower-cased, and the duration token is `int(64 / duration)`: a float division
truncated toward zero by `int()`, rendered here as truncating integer division
(ZeroDivisionError on duration 0; float and exact division agree after
truncation at every duration of magnitude below 2^46). -/
def lilypond (point : Point) : Except PyError Point :=
  if point.lilypond.isSome then Except.ok point
  else
    match point.octave with
    | none => Except.error (PyError.keyError "octave")
    | some octave =>
      match point.pitch with
      | none => Except.error (PyError.keyError "pitch")
      | some pitch =>
        match point.duration with
        | none => Except.error (PyError.keyError "duration")
        | some duration =>
          let octave_string :=
            if octave > 4 then pyStrMul "\x27" (octave - 4)
            else if octave < 4 then pyStrMul "," (4 - octave)
            else ""
          let m := modifiers pitch
          let modifier_string :=
            if m > 0 then pyStrMul "is" m
            else if m < 0 then pyStrMul "es" m
            else ""
          let pitch_string := pyLower (letter pitch) ++ modifier_string
          if duration = 0 then Except.error PyError.zeroDivisionError
          else
            let duration_string := toString (Int.tdiv 64 duration)
            Except.ok { point with
              lilypond := some (pitch_string ++ octave_string ++ duration_string) }

/-- From transforms.py: the `_dynamic_markers_to_velocity` table, in source
order. -/
def dynamic_markers_to_velocity : List (String × Int) :=
  [("pppppp", 10), ("ppppp", 16), ("pppp", 20), ("ppp", 24), ("pp", 36),
   ("p", 48), ("mp", 64), ("mf", 74), ("f", 84), ("ff", 94), ("fff", 114),
   ("ffff", 127)]

/-- The marker names of the table (`_dynamic_markers_to_velocity.keys()`),
interpolated into the error messages of dynamics. -/
def markerNames : List String := dynamic_markers_to_velocity.map Prod.fst

/-- An argument of dynamics: a midi velocity integer or a marker string. -/
inductive DynValue where
  | int (n : Int)
  | str (s : String)
deriving DecidableEq, Repr

/-- How Python `%s` renders a dynamics argument into an error message. -/
def DynValue.render : DynValue → String
  | .int n => toString n
  | .str s => s

/-- A dynamics argument accepted without a ValueError: any integer, or a
string present in the marker table. -/
def DynValue.valid : DynValue → Prop
  | .int _ => True
  | .str s => (dynamic_markers_to_velocity.lookup s).isSome = true

instance : DecidablePred DynValue.valid := by
  intro v
  cases v with
  | int n => exact isTrue trivial
  | str s => exact inferInstanceAs (Decidable (_ = true))

/-- From transforms.py: `dynamics(start, end)` applied to a sequence.  The
start marker resolves to an integer velocity (ValueError naming start when the
string is unknown); the end marker likewise, defaulting to the start velocity,
but the unknown-end ValueError interpolates `start`, not `end`, into its
message, exactly as the source does.  The returned sequence is built from
copies of the points (copying is the identity in this embedding).  An empty
sequence returns early; otherwise `velocity_interval` divides by
`len(sequence) - 1`, which raises ZeroDivisionError when the length is 1.  The
source computes the interpolation in IEEE-754 doubles; it is rendered here in
exact rationals with the Python `int()` truncation, which coincides with the
source wherever the doubles involved are exact (in particular at every input
evaluated in this file). -/
def dynamics (start : DynValue) (endv : Option DynValue) (sequence : OSequence) :
    Except PyError OSequence :=
  let startRes : Except PyError Int :=
    match start with
    | .int n => Except.ok n
    | .str s =>
      match dynamic_markers_to_velocity.lookup s with
      | some v => Except.ok v
      | none => Except.error (PyError.valueError "Unknown start dynamic" s markerNames)
  match startRes with
  | .error e => Except.error e
  | .ok start_velocity =>
    let endRes : Except PyError Int :=
      match endv with
      | none => Except.ok start_velocity
      | some (.int n) => Except.ok n
      | some (.str s) =>
        match dynamic_markers_to_velocity.lookup s with
        | some v => Except.ok v
        | none =>
          Except.error (PyError.valueError "Unknown end dynamic" start.render markerNames)
    match endRes with
    | .error e => Except.error e
    | .ok end_velocity =>
      let retval := sequence.elements
      if retval.length = 0 then Except.ok (OSequence.mk retval)
      else if sequence.elements.length = 1 then Except.error PyError.zeroDivisionError
      else
        let velocity_interval : ℚ :=
          ((end_velocity : ℚ) - (start_velocity : ℚ)) / ((sequence.elements.length : ℚ) - 1)
        let velocities := (List.range sequence.elements.length).map
          (fun pos => pyInt ((start_velocity : ℚ) + velocity_interval * (pos : ℚ)))
        Except.ok (OSequence.mk
          (List.zipWith (fun point velocity => { point with velocity := some velocity })
            retval velocities))

/-! Helper lemmas about folding `max` over a list of integers, used to reason
about `OSequence.next_offset`. -/

theorem foldl_max_mono {a b : Int} (h : a ≤ b) :
    ∀ l : List Int, l.foldl max a ≤ l.foldl max b := by
  intro l
  induction l generalizing a b with
  | nil => exact h
  | cons x t ih => exact ih (max_le_max h (le_refl x))

theorem seed_le_foldl_max (a : Int) (l : List Int) : a ≤ l.foldl max a := by
  induction l generalizing a with
  | nil => exact le_refl a
  | cons x t ih => exact le_trans (le_max_left a x) (ih (max a x))

theorem mem_le_foldl_max {x : Int} {l : List Int} (h : x ∈ l) (a : Int) :
    x ≤ l.foldl max a := by
  induction l generalizing a with
  | nil => cases h
  | cons y t ih =>
    rcases List.mem_cons.mp h with rfl | hmem
    · exact le_trans (le_max_right a x) (seed_le_foldl_max (max a x) t)
    · exact ih hmem (max a y)

theorem foldl_max_le {M a : Int} {l : List Int} (ha : a ≤ M)
    (h : ∀ x ∈ l, x ≤ M) : l.foldl max a ≤ M := by
  induction l generalizing a with
  | nil => exact ha
  | cons y t ih =>
    exact ih (max_le ha (h y (List.mem_cons_self y t)))
      (fun x hx => h x (List.mem_cons_of_mem y hx))

theorem foldl_max_mem_or_seed (a : Int) (l : List Int) :
    l.foldl max a = a ∨ l.foldl max a ∈ l := by
  induction l generalizing a with
  | nil => exact Or.inl rfl
  | cons x t ih =>
    rcases ih (max a x) with heq | hmem
    · rcases max_choice a x with hax | hax
      · exact Or.inl (by rw [List.foldl_cons, heq, hax])
      · exact Or.inr (by rw [List.foldl_cons, heq, hax]; exact List.mem_cons_self x t)
    · exact Or.inr (List.mem_cons_of_mem x hmem)

theorem foldl_max_eq {M a : Int} {l : List Int} (ha : a ≤ M)
    (hall : ∀ x ∈ l, x ≤ M) (hmem : M ∈ l) : l.foldl max a = M :=
  le_antisymm (foldl_max_le ha hall) (mem_le_foldl_max hmem a)

theorem foldl_max_perm {l₁ l₂ : List Int} (h : List.Perm l₁ l₂) (a : Int) :
    l₁.foldl max a = l₂.foldl max a := by
  induction h generalizing a with
  | nil => rfl
  | cons x _ ih => simpa using ih (max a x)
  | swap x y t => simp [List.foldl_cons, sup_right_comm]
  | trans _ _ ih₁ ih₂ => exact (ih₁ a).trans (ih₂ a)

/-- Two sequences with the same element list are the same sequence. -/
theorem OSequence.eq_of_elements_eq {a b : OSequence} (h : a.elements = b.elements) :
    a = b := by
  cases a
  cases b
  simpa using h

/-- A reversed point is the bare `{offset: 0}` dict exactly when the original
point was bare (its only key the offset) and sat at the reflected offset. -/
theorem reversePoint_eq_bare {n k : Int} {q : Point} :
    reversePoint n q = barePoint k ↔ q = barePoint q.offset ∧ n - q.offset = k := by
  obtain ⟨qo, qd, qp, qoc, qm, qv, ql, qe⟩ := q
  simp only [reversePoint, barePoint, Point.mk.injEq]
  constructor
  · rintro ⟨h1, rfl, rfl, rfl, rfl, rfl, rfl, rfl⟩
    simp only [Option.getD_none] at h1
    exact ⟨by simp, by omega⟩
  · rintro ⟨⟨-, rfl, rfl, rfl, rfl, rfl, rfl, rfl⟩, h1⟩
    simp only [Option.getD_none]
    exact ⟨by omega, by simp⟩

/-- On a sequence whose first point sits at offset 0 and whose reflected
points are all distinct from the bare anchor dict, `reverse` is exactly the
offset-sorted reflection of every point: no anchor is prepended and no point
is dropped. -/
theorem reverse_elements_of_head_zero (l : List Point) (p : Point) (rest : List Point)
    (hl : l = p :: rest) (h0 : p.offset = 0)
    (hkeep : ∀ q ∈ l, reversePoint (OSequence.next_offset (OSequence.mk l)) q ≠ barePoint 0) :
    (reverse (OSequence.mk l)).elements =
      List.insertionSort offsetLE
        (l.map (reversePoint (OSequence.next_offset (OSequence.mk l)))) := by
  subst hl
  simp only [reverse]
  have hanch : (OSequence.mk (p :: rest)).anchored = OSequence.mk (p :: rest) := by
    simp [OSequence.anchored, h0]
  rw [hanch]
  congr 1
  apply List.filter_eq_self.mpr
  intro x hx
  obtain ⟨q, hq, rfl⟩ := List.mem_map.mp hx
  exact decide_eq_true (hkeep q hq)

/-! Claim theorems. -/

/-- Claim C1 (code bug): the spec says a 1-point sequence is returned
unchanged by dynamics with no velocity assigned, but the source only guards
the empty sequence; on one point the interval computation divides by
`len(sequence) - 1 = 0` and raises ZeroDivisionError. -/
theorem c1_dynamics_single_point_zero_division :
    dynamics (DynValue.str "p") (some (DynValue.str "f"))
      (OSequence.mk [{ offset := 0, duration := some 16, pitch := some 3, octave := some 4 }]) =
      Except.error PyError.zeroDivisionError := rfl

/-- Claim C3 (code bug): at a pitch with a negative accidental adjustment
(pitch -7, one flat, adjustment -1) the rendered token is "d4": the flat
suffix is lost, because the source computes the Python expression
`"es" * m` with m negative, which is the empty string, instead of repeating
"es" abs(m) times as the spec states. -/
theorem c3_lilypond_flat_marker_dropped :
    modifiers (-7) = -1 ∧
    pyStrMul "es" (modifiers (-7)) = "" ∧
    lilypond { offset := 0, duration := some 16, pitch := some (-7), octave := some 4 } =
      Except.ok { offset := 0, duration := some 16, pitch := some (-7), octave := some 4,
                  lilypond := some "d4" } :=
  ⟨rfl, rfl, by decide⟩

/-- Claim C4 (code bug): with a valid start marker "p" and an unknown end
marker "xx", the ValueError raised by dynamics interpolates the start value
"p" into its message rather than the offending value "xx" (the source passes
`start` to the unknown-end format string), for every input sequence. -/
theorem c4_unknown_end_dynamic_names_start (seq : OSequence) :
    dynamics (DynValue.str "p") (some (DynValue.str "xx")) seq =
      Except.error (PyError.valueError "Unknown end dynamic" "p" markerNames) := rfl

/-- Claim C7: inverting about any pivot twice restores any point carrying a
midi_pitch exactly, since one application maps the value to
pivot - (value - pivot). -/
theorem c7_invert_involution (pivot : Int) (point : Point) (m : Int)
    (h : point.midi_pitch = some m) :
    invert pivot (invert pivot point) = point := by
  obtain ⟨off, dur, pi, oc, mp, vel, lp, ex⟩ := point
  have h2 : mp = some m := h
  subst h2
  simp only [invert, Point.mk.injEq, Option.some.injEq, and_self, and_true, true_and]
  omega

/-- Witness for C7 at pivot 66 and midi_pitch 60. -/
theorem c7_invert_involution_witness :
    ({ offset := 0, midi_pitch := some 60 } : Point).midi_pitch = some 60 ∧
    invert 66 (invert 66 ({ offset := 0, midi_pitch := some 60 } : Point)) =
      ({ offset := 0, midi_pitch := some 60 } : Point) :=
  ⟨rfl, c7_invert_involution 66 _ 60 rfl⟩

/-- Claim C10: the semitone-table lookup of midi_pitch is total: for every
point carrying pitch and octave (pitch of any sign), `pitch % 7` lies in
[0, 7), the lookup succeeds, and midi_pitch is set to
table[pitch % 7] + modifiers(pitch) + 12 * octave. -/
theorem c10_midi_pitch_total (point : Point) (o pi : Int)
    (ho : point.octave = some o) (hp : point.pitch = some pi) :
    midi_pitch point = Except.ok { point with
      midi_pitch := some (midi_pitchTable.getD (pi.emod 7).toNat 0 + modifiers pi + 12 * o) } := by
  have h1 : 0 ≤ pi.emod 7 := Int.emod_nonneg pi (by decide)
  have h2 : pi.emod 7 < 7 := Int.emod_lt_of_pos pi (by decide)
  have hb : (pi.emod 7).toNat < 7 := by omega
  have hget : midi_pitchTable.get? (pi.emod 7).toNat =
      some (midi_pitchTable.getD (pi.emod 7).toNat 0) := by
    set n := (pi.emod 7).toNat with hn
    interval_cases n <;> rfl
  simp only [midi_pitch, ho, hp, hget]

/-- Claim C2 (counterexample): the one-point sequence holding only the bare
point `{offset: 0}` starts at offset 0, yet reversing it twice yields the
empty sequence (the bare point is exactly the anchor pattern and is dropped),
so the double reversal does not reproduce the multiset of points. -/
theorem c2_reverse_involution_counterexample :
    (OSequence.mk [barePoint 0]).elements.head? = some (barePoint 0) ∧
    (barePoint 0).offset = 0 ∧
    ¬ List.Perm (reverse (reverse (OSequence.mk [barePoint 0]))).elements
        (OSequence.mk [barePoint 0]).elements := by
  refine ⟨rfl, rfl, fun h => ?_⟩
  have e : (reverse (reverse (OSequence.mk [barePoint 0]))).elements = [] := by decide
  rw [e] at h
  have := h.length_eq
  simp at this

/-- Claim C2 (amended): for every sequence whose first element has offset 0,
whose offsets (and durations, when present) are nonnegative, and which
contains no point whose only attribute is its offset with that offset equal
to 0 or to the sequence next_offset, applying reverse twice yields a sequence
whose multiset of points equals the original multiset, offsets included. -/
theorem c2_reverse_involution_amended (s : OSequence) (p : Point) (rest : List Point)
    (helts : s.elements = p :: rest)
    (h0 : p.offset = 0)
    (hoff : ∀ q ∈ s.elements, 0 ≤ q.offset)
    (hdur : ∀ q ∈ s.elements, 0 ≤ q.duration.getD 0)
    (hbare : ∀ q ∈ s.elements, q = barePoint q.offset →
      q.offset ≠ 0 ∧ q.offset ≠ s.next_offset) :
    List.Perm (reverse (reverse s)).elements s.elements := by
  obtain ⟨l⟩ := s
  dsimp only at helts hoff hdur hbare ⊢
  subst helts
  set L := OSequence.next_offset (OSequence.mk (p :: rest)) with hLdef
  have hLexpand : L = ((p :: rest).map Point.endOffset).foldl max 0 := rfl
  have hub : ∀ q ∈ p :: rest, q.endOffset ≤ L := by
    intro q hq
    rw [hLexpand]
    exact mem_le_foldl_max (List.mem_map_of_mem Point.endOffset hq) 0
  have hL0 : 0 ≤ L := by rw [hLexpand]; exact seed_le_foldl_max 0 _
  have hkeep1 : ∀ q ∈ p :: rest, reversePoint L q ≠ barePoint 0 := by
    intro q hq heq
    obtain ⟨hqbare, hqoff⟩ := reversePoint_eq_bare.mp heq
    exact (hbare q hq hqbare).2 (by omega)
  have hrev1 : (reverse (OSequence.mk (p :: rest))).elements =
      List.insertionSort offsetLE ((p :: rest).map (reversePoint L)) :=
    reverse_elements_of_head_zero _ p rest rfl h0 hkeep1
  set R := List.insertionSort offsetLE ((p :: rest).map (reversePoint L)) with hRdef
  have hperm1 : List.Perm R ((p :: rest).map (reversePoint L)) :=
    List.perm_insertionSort offsetLE _
  have hsortedR : List.Sorted offsetLE R := List.sorted_insertionSort offsetLE _
  have hRmem : ∀ x ∈ R, ∃ q ∈ p :: rest, x = reversePoint L q := by
    intro x hx
    obtain ⟨q, hq, hqx⟩ := List.mem_map.mp (hperm1.mem_iff.mp hx)
    exact ⟨q, hq, hqx.symm⟩
  have hRoff : ∀ x ∈ R, 0 ≤ x.offset := by
    intro x hx
    obtain ⟨q, hq, rfl⟩ := hRmem x hx
    have h1 := hub q hq
    have h2 : (reversePoint L q).offset = L - q.offset - q.duration.getD 0 := rfl
    have h3 : q.endOffset = q.offset + q.duration.getD 0 := rfl
    omega
  have hattain : ∃ q ∈ p :: rest, q.endOffset = L := by
    rcases foldl_max_mem_or_seed 0 ((p :: rest).map Point.endOffset) with h | h
    · refine ⟨p, List.mem_cons_self p rest, ?_⟩
      have h1 : p.endOffset ≤ L := hub p (List.mem_cons_self p rest)
      have h2 : p.endOffset = p.offset + p.duration.getD 0 := rfl
      have h3 : 0 ≤ p.duration.getD 0 := hdur p (List.mem_cons_self p rest)
      have h4 : L = 0 := by rw [hLexpand]; exact h
      omega
    · rw [← hLexpand] at h
      obtain ⟨q, hq, hqe⟩ := List.mem_map.mp h
      exact ⟨q, hq, hqe⟩
  have hRzero : ∃ x ∈ R, x.offset = 0 := by
    obtain ⟨q, hq, hqe⟩ := hattain
    refine ⟨reversePoint L q, hperm1.mem_iff.mpr (List.mem_map_of_mem _ hq), ?_⟩
    have h2 : (reversePoint L q).offset = L - q.offset - q.duration.getD 0 := rfl
    have h3 : q.endOffset = q.offset + q.duration.getD 0 := rfl
    omega
  have hRne : R ≠ [] := by
    intro hnil
    rw [hnil] at hperm1
    have := hperm1.length_eq
    simp at this
  obtain ⟨y, t, hyt⟩ : ∃ y t, R = y :: t := by
    cases hRc : R with
    | nil => exact absurd hRc hRne
    | cons y t => exact ⟨y, t, rfl⟩
  have hy0 : y.offset = 0 := by
    obtain ⟨x, hx, hx0⟩ := hRzero
    rw [hyt] at hx hsortedR
    rcases List.mem_cons.mp hx with rfl | hxt
    · exact hx0
    · have h1 : offsetLE y x := List.rel_of_sorted_cons hsortedR x hxt
      have h2 : 0 ≤ y.offset := hRoff y (by rw [hyt]; exact List.mem_cons_self y t)
      have h3 : y.offset ≤ x.offset := h1
      omega
  have hmapend : ∀ q : Point, (reversePoint L q).endOffset = L - q.offset := by
    intro q
    have h2 : (reversePoint L q).endOffset =
        (L - q.offset - q.duration.getD 0) + q.duration.getD 0 := rfl
    omega
  have hL2 : OSequence.next_offset (OSequence.mk R) = L := by
    have hpermEnd : List.Perm (R.map Point.endOffset)
        (((p :: rest).map (reversePoint L)).map Point.endOffset) := hperm1.map _
    have e1 : OSequence.next_offset (OSequence.mk R) =
        (R.map Point.endOffset).foldl max 0 := rfl
    rw [e1, foldl_max_perm hpermEnd 0, List.map_map]
    have e2 : (Point.endOffset ∘ reversePoint L) = fun q => L - q.offset :=
      funext hmapend
    rw [e2]
    apply foldl_max_eq hL0
    · intro x hx
      obtain ⟨q, hq, rfl⟩ := List.mem_map.mp hx
      have := hoff q hq
      omega
    · have hmem : (fun q : Point => L - q.offset) p ∈
          List.map (fun q : Point => L - q.offset) (p :: rest) :=
        List.mem_map_of_mem _ (List.mem_cons_self p rest)
      simp only [h0, sub_zero] at hmem
      exact hmem
  have hinv : ∀ q : Point, reversePoint L (reversePoint L q) = q := by
    intro q
    obtain ⟨qo, qd, qp2, qoc, qm, qv, ql, qe⟩ := q
    simp only [reversePoint, Point.mk.injEq, and_self, and_true, true_and]
    omega
  have hkeep2 : ∀ x ∈ R,
      reversePoint (OSequence.next_offset (OSequence.mk R)) x ≠ barePoint 0 := by
    rw [hL2]
    intro x hx heq
    obtain ⟨q, hq, rfl⟩ := hRmem x hx
    rw [hinv q] at heq
    have hqoff : q.offset = 0 := by rw [heq]; rfl
    have hqbare : q = barePoint q.offset := by rw [hqoff]; exact heq
    exact (hbare q hq hqbare).1 hqoff
  have hrev2 : (reverse (OSequence.mk R)).elements =
      List.insertionSort offsetLE
        (R.map (reversePoint (OSequence.next_offset (OSequence.mk R)))) :=
    reverse_elements_of_head_zero R y t hyt hy0 hkeep2
  have hseq1 : reverse (OSequence.mk (p :: rest)) = OSequence.mk R :=
    OSequence.eq_of_elements_eq hrev1
  have hfinal : List.Perm (reverse (OSequence.mk R)).elements (p :: rest) := by
    rw [hrev2, hL2]
    apply List.Perm.trans (List.perm_insertionSort offsetLE _)
    apply List.Perm.trans (hperm1.map (reversePoint L))
    rw [List.map_map]
    have hid : (reversePoint L ∘ reversePoint L) = id := funext hinv
    rw [hid, List.map_id]
  show List.Perm (reverse (reverse (OSequence.mk (p :: rest)))).elements (p :: rest)
  rw [hseq1]
  exact hfinal

/-- Witness for the amended C2 on a concrete two-point sequence. -/
theorem c2_reverse_involution_amended_witness :
    ((OSequence.mk [{ offset := 0, duration := some 4, pitch := some 1 },
                    { offset := 4, duration := some 2, pitch := some 2 }]).elements =
      ({ offset := 0, duration := some 4, pitch := some 1 } : Point) ::
        [{ offset := 4, duration := some 2, pitch := some 2 }]) ∧
    ({ offset := 0, duration := some 4, pitch := some 1 } : Point).offset = 0 ∧
    (∀ q ∈ (OSequence.mk [{ offset := 0, duration := some 4, pitch := some 1 },
                          { offset := 4, duration := some 2, pitch := some 2 }]).elements,
      0 ≤ q.offset) ∧
    (∀ q ∈ (OSequence.mk [{ offset := 0, duration := some 4, pitch := some 1 },
                          { offset := 4, duration := some 2, pitch := some 2 }]).elements,
      0 ≤ q.duration.getD 0) ∧
    (∀ q ∈ (OSequence.mk [{ offset := 0, duration := some 4, pitch := some 1 },
                          { offset := 4, duration := some 2, pitch := some 2 }]).elements,
      q = barePoint q.offset → q.offset ≠ 0 ∧ q.offset ≠
        (OSequence.mk [{ offset := 0, duration := some 4, pitch := some 1 },
                       { offset := 4, duration := some 2, pitch := some 2 }]).next_offset) ∧
    List.Perm
      (reverse (reverse (OSequence.mk
        [{ offset := 0, duration := some 4, pitch := some 1 },
         { offset := 4, duration := some 2, pitch := some 2 }]))).elements
      (OSequence.mk [{ offset := 0, duration := some 4, pitch := some 1 },
                     { offset := 4, duration := some 2, pitch := some 2 }]).elements :=
  ⟨rfl, rfl, by decide, by decide, by decide,
    c2_reverse_involution_amended _ _ _ rfl rfl (by decide) (by decide) (by decide)⟩

/-- Claim C6: every point of a reversed sequence arises from a point of the
(anchor-prefixed when needed) input with new offset
last_offset - offset - duration, last_offset being the next_offset of the
original sequence and an absent duration read as 0; and the documented
example holds: reversing offsets/durations (0,4),(4,2) yields (0,2),(2,4). -/
theorem c6_reverse_offset_formula_and_example :
    (∀ (s : OSequence), ∀ q ∈ (reverse s).elements,
      ∃ p ∈ s.anchored.elements, q = reversePoint s.next_offset p) ∧
    reverse (OSequence.mk [{ offset := 0, duration := some 4 },
                           { offset := 4, duration := some 2 }]) =
      OSequence.mk [{ offset := 0, duration := some 2 },
                    { offset := 2, duration := some 4 }] := by
  constructor
  · intro s q hq
    simp only [reverse] at hq
    have hq2 := (List.perm_insertionSort offsetLE _).mem_iff.mp hq
    have hq3 := List.mem_of_mem_filter hq2
    obtain ⟨p, hp, hpq⟩ := List.mem_map.mp hq3
    exact ⟨p, hp, hpq.symm⟩
  · decide

/-- Witness for C6 on the documented example: the point at offset 0 with
duration 2 of the reversed sequence comes from the input point at offset 4
reflected about next_offset 6. -/
theorem c6_reverse_offset_formula_and_example_witness :
    (({ offset := 0, duration := some 2 } : Point) ∈
      (reverse (OSequence.mk [{ offset := 0, duration := some 4 },
                              { offset := 4, duration := some 2 }])).elements) ∧
    ∃ p ∈ (OSequence.mk [{ offset := 0, duration := some 4 },
                         { offset := 4, duration := some 2 }]).anchored.elements,
      ({ offset := 0, duration := some 2 } : Point) =
        reversePoint (OSequence.mk [{ offset := 0, duration := some 4 },
                                    { offset := 4, duration := some 2 }]).next_offset p :=
  ⟨by decide, c6_reverse_offset_formula_and_example.1 _ _ (by decide)⟩

/-- Claim C8: a point already carrying a lilypond key passes through the
lilypond transform entirely untouched, and consequently a second application
of the transform to any successful result returns it unchanged, so rendering
twice yields the same lilypond string as rendering once. -/
theorem c8_lilypond_memoized_idempotent :
    (∀ (point : Point) (str : String), point.lilypond = some str →
      lilypond point = Except.ok point) ∧
    (∀ point result : Point, lilypond point = Except.ok result →
      lilypond result = Except.ok result) := by
  have hmem : ∀ point : Point, point.lilypond.isSome = true →
      lilypond point = Except.ok point := by
    intro point h
    unfold lilypond
    rw [if_pos h]
  constructor
  · intro point str h
    exact hmem point (by rw [h]; rfl)
  · intro point result h
    apply hmem
    by_cases hp : point.lilypond.isSome = true
    · rw [hmem point hp] at h
      cases h
      exact hp
    · unfold lilypond at h
      rw [if_neg hp] at h
      rcases hoc : point.octave with _ | octave
      · rw [hoc] at h; cases h
      rw [hoc] at h
      rcases hpi : point.pitch with _ | pitch
      · rw [hpi] at h; cases h
      rw [hpi] at h
      rcases hdu : point.duration with _ | duration
      · rw [hdu] at h; cases h
      rw [hdu] at h
      dsimp only at h
      by_cases hz : duration = 0
      · rw [if_pos hz] at h; cases h
      · rw [if_neg hz] at h
        cases h
        rfl

/-- Witness for C8: a point carrying lilypond "c4" passes through unchanged. -/
theorem c8_lilypond_memoized_idempotent_witness :
    ({ offset := 0, lilypond := some "c4" } : Point).lilypond = some "c4" ∧
    lilypond ({ offset := 0, lilypond := some "c4" } : Point) =
      Except.ok ({ offset := 0, lilypond := some "c4" } : Point) :=
  ⟨rfl, c8_lilypond_memoized_idempotent.1 _ "c4" rfl⟩

/-- Claim C9: on the empty sequence, dynamics with any valid start and end
arguments returns a new empty sequence without any error: the early return on
zero length means the division by length - 1 is never reached. -/
theorem c9_dynamics_empty_sequence (start : DynValue) (endv : Option DynValue)
    (hs : start.valid) (he : ∀ e, endv = some e → e.valid) :
    dynamics start endv (OSequence.mk []) = Except.ok (OSequence.mk []) := by
  cases start with
  | int n =>
    cases endv with
    | none => rfl
    | some e =>
      cases e with
      | int m => rfl
      | str t =>
        obtain ⟨v, hv⟩ := Option.isSome_iff_exists.mp (he (.str t) rfl)
        simp [dynamics, hv]
  | str u =>
    obtain ⟨w, hw⟩ := Option.isSome_iff_exists.mp hs
    cases endv with
    | none => simp [dynamics, hw]
    | some e =>
      cases e with
      | int m => simp [dynamics, hw]
      | str t =>
        obtain ⟨v, hv⟩ := Option.isSome_iff_exists.mp (he (.str t) rfl)
        simp [dynamics, hw, hv]

/-- Witness for C9 with the valid markers p and f. -/
theorem c9_dynamics_empty_sequence_witness :
    DynValue.valid (DynValue.str "p") ∧
    (∀ e, (some (DynValue.str "f") : Option DynValue) = some e → e.valid) ∧
    dynamics (DynValue.str "p") (some (DynValue.str "f")) (OSequence.mk []) =
      Except.ok (OSequence.mk []) :=
  ⟨by decide, by intro e he; injection he with h2; subst h2; decide,
    c9_dynamics_empty_sequence _ _ (by decide)
      (by intro e he; injection he with h2; subst h2; decide)⟩

/-- Witness for C10: pitch 5 (the note A) at octave 4 yields midi pitch 48,
the concrete test of the spec. -/
theorem c10_midi_pitch_total_witness :
    ({ offset := 0, pitch := some 5, octave := some 4 } : Point).octave = some 4 ∧
    ({ offset := 0, pitch := some 5, octave := some 4 } : Point).pitch = some 5 ∧
    midi_pitch ({ offset := 0, pitch := some 5, octave := some 4 } : Point) =
      Except.ok { offset := 0, pitch := some 5, octave := some 4, midi_pitch := some 48 } :=
  ⟨rfl, rfl, c10_midi_pitch_total _ 4 5 rfl rfl⟩

end Sebastian
